import Mathlib

/-!
Verification of the collaborative-canvas server (`server/server.js`).

The server keeps, per room, an append-only log of drawing operations
(`roomsOperations`), each tagged with the authoring socket id, a per-room
sequential `opId`, geometry fields carried from the client event, and a
mutable `active` visibility flag.  Requests (`join-room`, `draw`, `clear`,
`undo`, `redo`, `cursor`, `disconnect`) are dispatched sequentially; every
handler below is a direct translation of the corresponding
`socket.on(...)` handler.  Outgoing socket emissions are modelled as data
(a list of target/message pairs) instead of side effects.
-/

namespace CollabCanvas

abbrev SessionId := String
abbrev RoomId := String

/-- Untyped JavaScript values as far as the server inspects them: the draw
handler only distinguishes numbers (via `typeof x === "number"`) from
everything else, and otherwise carries values through unchanged. -/
inductive JSVal where
  | num (n : Int)
  | str (s : String)
  | boolean (b : Bool)
  | nullV
  | undefinedV
deriving DecidableEq

/-- The `typeof v === "number"` test of the draw handler. -/
def JSVal.isNum : JSVal → Bool
  | .num _ => true
  | _ => false

/-- One entry of a room's `roomsOperations` array, exactly the object
literal built in the `draw` handler of `server/server.js`. -/
structure Operation where
  userId : SessionId
  prevX : JSVal
  prevY : JSVal
  x : JSVal
  y : JSVal
  color : JSVal
  size : JSVal
  tool : JSVal
  opId : Nat
  active : Bool
  clientId : JSVal
deriving DecidableEq

/-- The payload of an incoming `draw` event (`ev`); every field may hold an
arbitrary value, since the client is untrusted.  A missing field is
`JSVal.undefinedV`; a falsy `ev` itself is modelled as `Option.none` at the
request level. -/
structure DrawEv where
  prevX : JSVal
  prevY : JSVal
  x : JSVal
  y : JSVal
  color : JSVal
  size : JSVal
  tool : JSVal
  clientId : JSVal
deriving DecidableEq

/-- The payload of an incoming `cursor` event (`pos`). -/
structure CursorPos where
  x : JSVal
  y : JSVal
  color : JSVal
deriving DecidableEq

/-- Messages the server emits over the socket layer. -/
inductive Msg where
  | canvasHistory (ops : List Operation)
  | userInfo (sid : SessionId)
  | userList (ids : List SessionId)
  | draw (op : Operation)
  | clearUserStrokes (removed : List Nat)
  | undoOp (opId : Nat)
  | redoOp (opId : Nat)
  | cursor (sid : SessionId) (x y color : JSVal)
  | removeCursor (sid : SessionId)
deriving DecidableEq

/-- Emission target: `socket.emit` goes to one socket, `io.to(room).emit`
goes to every socket currently in the socket.io room. -/
inductive EmitTarget where
  | toSocket (sid : SessionId)
  | toRoom (room : RoomId)
deriving DecidableEq

abbrev Emit := EmitTarget × Msg

/-- The server's mutable state:
`roomsOperations` is the per-room log object (`none` = key absent);
`currentRoom` is each connection's `currentRoom` closure variable;
`ioRooms` is the socket.io adapter's room membership (maintained by
`socket.join` / `socket.leave`); `storeClients` is the `roomStore`
client list from `rooms.js`. -/
structure ServerState where
  roomsOperations : RoomId → Option (List Operation)
  currentRoom : SessionId → Option RoomId
  ioRooms : RoomId → List SessionId
  storeClients : RoomId → List SessionId

/-- Fresh server: no rooms, no members. -/
def initState : ServerState :=
  { roomsOperations := fun _ => none
    currentRoom := fun _ => none
    ioRooms := fun _ => []
    storeClients := fun _ => [] }

/-- The log of a room, read as the draw/undo/redo/clear handlers read
`roomsOperations[currentRoom]` (which the join handler guarantees exists
for any joined session; an absent key is read as the empty log). -/
def logOf (s : ServerState) (r : RoomId) : List Operation :=
  (s.roomsOperations r).getD []

/-- Modelled from the spec: `rooms.js` (the RoomRegistry / `roomStore`
module) is not among the sources; per spec §4.2, `join(roomId, sessionId)`
is idempotent — it adds `sessionId` to the room's member set, implicitly
removing the session from any different room first. -/
def registryJoin (m : RoomId → List SessionId) (room : RoomId) (sid : SessionId) :
    RoomId → List SessionId :=
  fun r =>
    if r = room then (if (m room).contains sid then m room else m room ++ [sid])
    else (m r).filter (fun x => x != sid)

/-- Modelled from the spec: `rooms.js` `removeClient` / spec §4.2
`leave(roomId, sessionId)` — removes membership, no-op if absent. -/
def registryLeave (m : RoomId → List SessionId) (room : RoomId) (sid : SessionId) :
    RoomId → List SessionId :=
  fun r => if r = room then (m room).filter (fun x => x != sid) else m r

/-- The loop guard of the `undo` and `clear` handlers:
`op.userId === socket.id && op.active`. -/
def isUndoable (uid : SessionId) (op : Operation) : Bool :=
  op.userId == uid && op.active

/-- The loop guard of the `redo` handler:
`op.userId === socket.id && !op.active`. -/
def isRedoable (uid : SessionId) (op : Operation) : Bool :=
  op.userId == uid && !op.active

/-- The in-place mutation `op.active = false`. -/
def flipOff (op : Operation) : Operation := { op with active := false }

/-- The in-place mutation `op.active = true`. -/
def flipOn (op : Operation) : Operation := { op with active := true }

/-- Forgets the `active` flag (normalises it), keeping every immutable
field and the log position; used to state frame properties. -/
def stripActive (op : Operation) : Operation := { op with active := true }

/-- The `undo` handler's backward loop: starting from the end of the log,
flip the first operation with matching user id and `active = true`, and
report its `opId`; leave the log unchanged if none matches.  The
structural recursion first searches the tail (the later entries), which is
exactly the backward scan. -/
def undoScan (uid : SessionId) : List Operation → List Operation × Option Nat
  | [] => ([], none)
  | op :: rest =>
    match undoScan uid rest with
    | (rest', some k) => (op :: rest', some k)
    | (_, none) =>
      if isUndoable uid op then (flipOff op :: rest, some op.opId)
      else (op :: rest, none)

/-- The `redo` handler's forward loop: flip the first operation (from the
start) with matching user id and `active = false`, and report its `opId`;
leave the log unchanged if none matches. -/
def redoScan (uid : SessionId) : List Operation → List Operation × Option Nat
  | [] => ([], none)
  | op :: rest =>
    if isRedoable uid op then (flipOn op :: rest, some op.opId)
    else
      let p := redoScan uid rest
      (op :: p.1, p.2)

/-- The `clear` handler's `forEach` loop: flip every active operation of
the user to inactive, collecting the flipped `opId`s in log order into
`removed`. -/
def clearOps (uid : SessionId) : List Operation → List Operation × List Nat
  | [] => ([], [])
  | op :: rest =>
    let p := clearOps uid rest
    if isUndoable uid op then (flipOff op :: p.1, op.opId :: p.2)
    else (op :: p.1, p.2)

/-- What `clearOps` does to a single log entry. -/
def clearFlip (uid : SessionId) (op : Operation) : Operation :=
  if isUndoable uid op then flipOff op else op

/-- The operation object the `draw` handler builds:
`opId` is the current length of the room's log, `active` starts `true`. -/
def mkOp (sid : SessionId) (ev : DrawEv) (n : Nat) : Operation :=
  { userId := sid
    prevX := ev.prevX
    prevY := ev.prevY
    x := ev.x
    y := ev.y
    color := ev.color
    size := ev.size
    tool := ev.tool
    opId := n
    active := true
    clientId := ev.clientId }

/-- The draw handler's validation:
`ev && typeof ev.prevX === "number" && ... && typeof ev.y === "number"`. -/
def wellFormedEv : Option DrawEv → Bool
  | none => false
  | some e => e.prevX.isNum && e.prevY.isNum && e.x.isNum && e.y.isNum

/-- The `join-room` handler: leave the previous socket.io room if any, set
`currentRoom`, join the new socket.io room, register with `roomStore`,
create the room's log if absent (`if (!roomsOperations[room]) ... = []`),
then emit the history and user info to the joining socket and the user
list to the room. -/
def handleJoin (s : ServerState) (sid : SessionId) (room : RoomId) :
    ServerState × List Emit :=
  let ioAfterLeave : RoomId → List SessionId :=
    match s.currentRoom sid with
    | some old => fun r => if r = old then (s.ioRooms r).filter (fun x => x != sid) else s.ioRooms r
    | none => s.ioRooms
  let ioAfterJoin : RoomId → List SessionId :=
    fun r =>
      if r = room then
        (if (ioAfterLeave room).contains sid then ioAfterLeave room
         else ioAfterLeave room ++ [sid])
      else ioAfterLeave r
  let clients := registryJoin s.storeClients room sid
  let s' : ServerState :=
    { roomsOperations := fun r =>
        if r = room then some ((s.roomsOperations room).getD []) else s.roomsOperations r
      currentRoom := fun x => if x = sid then some room else s.currentRoom x
      ioRooms := ioAfterJoin
      storeClients := clients }
  (s',
    [(.toSocket sid, .canvasHistory ((s.roomsOperations room).getD [])),
     (.toSocket sid, .userInfo sid),
     (.toRoom room, .userList (clients room))])

/-- The `draw` handler: ignore the event when the session has no current
room or the geometry fields are not all numbers; otherwise append a new
operation (with `opId` = current log length) and broadcast it to the
room. -/
def handleDraw (s : ServerState) (sid : SessionId) (ev : Option DrawEv) :
    ServerState × List Emit :=
  match s.currentRoom sid with
  | none => (s, [])
  | some room =>
    match ev with
    | none => (s, [])
    | some e =>
      if e.prevX.isNum && e.prevY.isNum && e.x.isNum && e.y.isNum then
        let ops := logOf s room
        let op := mkOp sid e ops.length
        ({ s with roomsOperations := fun r =>
            if r = room then some (ops ++ [op]) else s.roomsOperations r },
          [(.toRoom room, .draw op)])
      else (s, [])

/-- The `clear` handler: flip all of the sender's active operations to
inactive and broadcast the list of removed `opId`s (possibly empty). -/
def handleClear (s : ServerState) (sid : SessionId) : ServerState × List Emit :=
  match s.currentRoom sid with
  | none => (s, [])
  | some room =>
    let p := clearOps sid (logOf s room)
    ({ s with roomsOperations := fun r =>
        if r = room then some p.1 else s.roomsOperations r },
      [(.toRoom room, .clearUserStrokes p.2)])

/-- The `undo` handler: flip the sender's last active operation, if any,
broadcasting its `opId`; otherwise do nothing. -/
def handleUndo (s : ServerState) (sid : SessionId) : ServerState × List Emit :=
  match s.currentRoom sid with
  | none => (s, [])
  | some room =>
    match undoScan sid (logOf s room) with
    | (_, none) => (s, [])
    | (ops', some k) =>
      ({ s with roomsOperations := fun r =>
          if r = room then some ops' else s.roomsOperations r },
        [(.toRoom room, .undoOp k)])

/-- The `redo` handler: flip the sender's first inactive operation, if
any, broadcasting its `opId`; otherwise do nothing. -/
def handleRedo (s : ServerState) (sid : SessionId) : ServerState × List Emit :=
  match s.currentRoom sid with
  | none => (s, [])
  | some room =>
    match redoScan sid (logOf s room) with
    | (_, none) => (s, [])
    | (ops', some k) =>
      ({ s with roomsOperations := fun r =>
          if r = room then some ops' else s.roomsOperations r },
        [(.toRoom room, .redoOp k)])

/-- The `cursor` handler: pure relay of the position, tagged with the
sender's socket id, broadcast with `io.to(currentRoom)`; nothing stored. -/
def handleCursor (s : ServerState) (sid : SessionId) (pos : CursorPos) :
    ServerState × List Emit :=
  match s.currentRoom sid with
  | none => (s, [])
  | some room =>
    (s, [(.toRoom room, .cursor sid pos.x pos.y pos.color)])

/-- The `disconnect` handler: remove the socket from the `roomStore`
client list of its current room (socket.io itself removes a disconnected
socket from every adapter room), then broadcast a cursor-removal notice
and the updated user list. -/
def handleDisconnect (s : ServerState) (sid : SessionId) : ServerState × List Emit :=
  match s.currentRoom sid with
  | none => (s, [])
  | some room =>
    let clients := registryLeave s.storeClients room sid
    ({ s with storeClients := clients
              ioRooms := fun r => (s.ioRooms r).filter (fun x => x != sid) },
      [(.toRoom room, .removeCursor sid), (.toRoom room, .userList (clients room))])

/-- One incoming socket event, tagged with the sending session. -/
inductive Request where
  | joinRoom (sid : SessionId) (room : RoomId)
  | draw (sid : SessionId) (ev : Option DrawEv)
  | clear (sid : SessionId)
  | undo (sid : SessionId)
  | redo (sid : SessionId)
  | cursor (sid : SessionId) (pos : CursorPos)
  | disconnect (sid : SessionId)

/-- Sequential dispatch of one request (the server is single-threaded:
each handler runs to completion before the next event). -/
def step (s : ServerState) : Request → ServerState × List Emit
  | .joinRoom sid room => handleJoin s sid room
  | .draw sid ev => handleDraw s sid ev
  | .clear sid => handleClear s sid
  | .undo sid => handleUndo s sid
  | .redo sid => handleRedo s sid
  | .cursor sid pos => handleCursor s sid pos
  | .disconnect sid => handleDisconnect s sid

/-- The state after a request, dropping the emissions. -/
def stepState (s : ServerState) (req : Request) : ServerState := (step s req).1

/-- The state after a sequence of requests. -/
def runState (s : ServerState) (reqs : List Request) : ServerState :=
  reqs.foldl stepState s

/-- The sessions a given emission reaches: `socket.emit` reaches exactly
the one socket; `io.to(room).emit` reaches every socket in the socket.io
room — including the sender if it is a member. -/
def recipientsOf (s : ServerState) : EmitTarget → List SessionId
  | .toSocket sid => [sid]
  | .toRoom room => s.ioRooms room

/-- States the running server can actually be in: reachable from the
fresh state by sequential request dispatch. -/
inductive Reachable : ServerState → Prop where
  | init : Reachable initState
  | next : ∀ {s : ServerState} (req : Request), Reachable s → Reachable (stepState s req)

/-- Requests of the four mutating kinds issued by a given session:
the alphabet quantified over in the isolation property. -/
def isMutationBy (uid : SessionId) : Request → Bool
  | .draw sid _ => sid == uid
  | .clear sid => sid == uid
  | .undo sid => sid == uid
  | .redo sid => sid == uid
  | _ => false

/-! ### How one log entry may change under undo/redo/clear -/

theorem stripActive_flipOff (op : Operation) : stripActive (flipOff op) = stripActive op := rfl

theorem stripActive_flipOn (op : Operation) : stripActive (flipOn op) = stripActive op := rfl

/-- Relation between an original log entry and its form after one of the
visibility-mutating loops ran: either untouched, or an `active`-flag flip
of an entry owned by `uid`. -/
def ActiveTouch (uid : SessionId) (a b : Operation) : Prop :=
  b = a ∨ ((b = flipOff a ∨ b = flipOn a) ∧ a.userId = uid)

theorem ActiveTouch.strip_eq {uid : SessionId} {a b : Operation}
    (h : ActiveTouch uid a b) : stripActive b = stripActive a := by
  rcases h with rfl | ⟨rfl | rfl, -⟩ <;> rfl

theorem ActiveTouch.opId_eq {uid : SessionId} {a b : Operation}
    (h : ActiveTouch uid a b) : b.opId = a.opId := by
  rcases h with rfl | ⟨rfl | rfl, -⟩ <;> rfl

theorem ActiveTouch.userId_eq {uid : SessionId} {a b : Operation}
    (h : ActiveTouch uid a b) : b.userId = a.userId := by
  rcases h with rfl | ⟨rfl | rfl, -⟩ <;> rfl

theorem map_strip_of_forall₂ {uid : SessionId} {l l' : List Operation}
    (h : List.Forall₂ (ActiveTouch uid) l l') :
    l'.map stripActive = l.map stripActive := by
  induction h with
  | nil => rfl
  | cons hab _ ih => simp [ih, hab.strip_eq]

theorem map_opId_of_forall₂ {uid : SessionId} {l l' : List Operation}
    (h : List.Forall₂ (ActiveTouch uid) l l') :
    l'.map (fun op => op.opId) = l.map (fun op => op.opId) := by
  induction h with
  | nil => rfl
  | cons hab _ ih => simp [ih, hab.opId_eq]

theorem filter_user_of_forall₂ {uid B : SessionId} {l l' : List Operation}
    (hB : B ≠ uid) (h : List.Forall₂ (ActiveTouch uid) l l') :
    l'.filter (fun op => op.userId == B) = l.filter (fun op => op.userId == B) := by
  induction h with
  | nil => rfl
  | cons hab htail ih =>
    rename_i a b l₁ l₂
    rcases hab with rfl | ⟨hb, hu⟩
    · simp only [List.filter_cons, ih]
    · have hua : (a.userId == B) = false := by
        rw [hu]; exact beq_eq_false_iff_ne.mpr (Ne.symm hB)
      have hub : (b.userId == B) = false := by
        rw [ActiveTouch.userId_eq (Or.inr ⟨hb, hu⟩), hu]
        exact beq_eq_false_iff_ne.mpr (Ne.symm hB)
      simp [List.filter_cons, hua, hub, ih]

/-! ### The undo scan -/

theorem undoScan_cons (uid : SessionId) (op : Operation) (rest : List Operation) :
    undoScan uid (op :: rest) =
      match undoScan uid rest with
      | (rest', some k) => (op :: rest', some k)
      | (_, none) =>
        if isUndoable uid op then (flipOff op :: rest, some op.opId)
        else (op :: rest, none) := rfl

theorem isUndoable_userId {uid : SessionId} {op : Operation}
    (h : isUndoable uid op = true) : op.userId = uid := by
  simp [isUndoable, Bool.and_eq_true] at h
  exact h.1

theorem undoScan_touch (uid : SessionId) :
    ∀ l : List Operation, List.Forall₂ (ActiveTouch uid) l (undoScan uid l).1
  | [] => List.Forall₂.nil
  | op :: rest => by
    rw [undoScan_cons]
    rcases h : undoScan uid rest with ⟨rest', k⟩
    have ih := undoScan_touch uid rest
    rw [h] at ih
    cases k with
    | some k => exact List.Forall₂.cons (Or.inl rfl) ih
    | none =>
      cases hu : isUndoable uid op with
      | true =>
        simp only [hu, if_pos]
        exact List.Forall₂.cons (Or.inr ⟨Or.inl rfl, isUndoable_userId hu⟩)
          (List.forall₂_same.mpr fun a _ => Or.inl rfl)
      | false =>
        simp only [hu, Bool.false_eq_true, if_neg, not_false_iff]
        exact List.Forall₂.cons (Or.inl rfl)
          (List.forall₂_same.mpr fun a _ => Or.inl rfl)

theorem undoScan_none_of (uid : SessionId) :
    ∀ l : List Operation, (∀ op ∈ l, isUndoable uid op = false) →
      undoScan uid l = (l, none)
  | [], _ => rfl
  | op :: rest, h => by
    have ih := undoScan_none_of uid rest (fun o ho => h o (List.mem_cons_of_mem _ ho))
    rw [undoScan_cons, ih]
    simp [h op (List.mem_cons_self _ _)]

theorem undoScan_found (uid : SessionId) :
    ∀ l : List Operation, (∃ op ∈ l, isUndoable uid op = true) →
      ∃ l₁ o l₂, l = l₁ ++ o :: l₂ ∧ isUndoable uid o = true ∧
        (∀ x ∈ l₂, isUndoable uid x = false) ∧
        undoScan uid l = (l₁ ++ flipOff o :: l₂, some o.opId)
  | [], h => absurd h (by simp)
  | op :: rest, h => by
    by_cases hr : ∃ o ∈ rest, isUndoable uid o = true
    · obtain ⟨l₁, o, l₂, hsplit, ho, hafter, hscan⟩ := undoScan_found uid rest hr
      refine ⟨op :: l₁, o, l₂, by rw [hsplit]; rfl, ho, hafter, ?_⟩
      rw [undoScan_cons, hscan]
      simp
    · push_neg at hr
      have hrf : ∀ o ∈ rest, isUndoable uid o = false := fun o ho =>
        Bool.not_eq_true _ ▸ Bool.eq_false_iff.mpr (hr o ho)
      have hscan := undoScan_none_of uid rest hrf
      obtain ⟨o, homem, ho⟩ := h
      have hop : isUndoable uid op = true := by
        rcases List.mem_cons.mp homem with rfl | hmem
        · exact ho
        · exact absurd ho (by simp [hrf o hmem])
      refine ⟨[], op, rest, rfl, hop, hrf, ?_⟩
      rw [undoScan_cons, hscan]
      simp [hop]

/-- Undoing right after appending an active own operation flips exactly
that operation. -/
theorem undoScan_last (uid : SessionId) (o : Operation)
    (ho : isUndoable uid o = true) :
    ∀ l : List Operation, undoScan uid (l ++ [o]) = (l ++ [flipOff o], some o.opId)
  | [] => by rw [List.nil_append, undoScan_cons]; simp [ho, undoScan]
  | a :: l => by
    rw [List.cons_append, undoScan_cons, undoScan_last uid o ho l]
    rfl

/-! ### The redo scan -/

theorem redoScan_cons (uid : SessionId) (op : Operation) (rest : List Operation) :
    redoScan uid (op :: rest) =
      if isRedoable uid op then (flipOn op :: rest, some op.opId)
      else ((op :: (redoScan uid rest).1, (redoScan uid rest).2)) := rfl

theorem isRedoable_userId {uid : SessionId} {op : Operation}
    (h : isRedoable uid op = true) : op.userId = uid := by
  simp [isRedoable, Bool.and_eq_true] at h
  exact h.1

theorem redoScan_touch (uid : SessionId) :
    ∀ l : List Operation, List.Forall₂ (ActiveTouch uid) l (redoScan uid l).1
  | [] => List.Forall₂.nil
  | op :: rest => by
    rw [redoScan_cons]
    cases hu : isRedoable uid op with
    | true =>
      simp only [hu, if_pos]
      exact List.Forall₂.cons (Or.inr ⟨Or.inr rfl, isRedoable_userId hu⟩)
        (List.forall₂_same.mpr fun a _ => Or.inl rfl)
    | false =>
      simp only [hu, Bool.false_eq_true, if_neg, not_false_iff]
      exact List.Forall₂.cons (Or.inl rfl) (redoScan_touch uid rest)

theorem redoScan_none_of (uid : SessionId) :
    ∀ l : List Operation, (∀ op ∈ l, isRedoable uid op = false) →
      redoScan uid l = (l, none)
  | [], _ => rfl
  | op :: rest, h => by
    have ih := redoScan_none_of uid rest (fun o ho => h o (List.mem_cons_of_mem _ ho))
    rw [redoScan_cons, ih]
    simp [h op (List.mem_cons_self _ _)]

/-- The forward redo scan skips a prefix with no redoable entry and flips
the first redoable operation it meets. -/
theorem redoScan_skip (uid : SessionId) (o : Operation)
    (ho : isRedoable uid o = true) :
    ∀ (l₁ : List Operation), (∀ x ∈ l₁, isRedoable uid x = false) →
      ∀ l₂, redoScan uid (l₁ ++ o :: l₂) = (l₁ ++ flipOn o :: l₂, some o.opId)
  | [], _, l₂ => by rw [List.nil_append, redoScan_cons]; simp [ho]
  | a :: l₁, h, l₂ => by
    rw [List.cons_append, redoScan_cons]
    rw [redoScan_skip uid o ho l₁ (fun x hx => h x (List.mem_cons_of_mem _ hx)) l₂]
    simp [h a (List.mem_cons_self _ _)]

/-! ### The clear loop -/

theorem clearOps_eq (uid : SessionId) :
    ∀ l : List Operation,
      clearOps uid l =
        (l.map (clearFlip uid), (l.filter (isUndoable uid)).map (fun op => op.opId))
  | [] => rfl
  | op :: rest => by
    have ih := clearOps_eq uid rest
    cases hu : isUndoable uid op with
    | true => simp [clearOps, ih, clearFlip, List.filter_cons, hu]
    | false => simp [clearOps, ih, clearFlip, List.filter_cons, hu]

theorem clearFlip_touch (uid : SessionId) (op : Operation) :
    ActiveTouch uid op (clearFlip uid op) := by
  unfold clearFlip
  cases hu : isUndoable uid op with
  | true => exact Or.inr ⟨Or.inl rfl, isUndoable_userId hu⟩
  | false => exact Or.inl rfl

theorem clearOps_touch (uid : SessionId) :
    ∀ l : List Operation, List.Forall₂ (ActiveTouch uid) l (clearOps uid l).1
  | [] => List.Forall₂.nil
  | op :: rest => by
    have ih := clearOps_touch uid rest
    rw [clearOps_eq uid rest] at ih
    rw [clearOps_eq uid (op :: rest)]
    exact List.Forall₂.cons (clearFlip_touch uid op) ih

/-! ### Handler characterizations -/

theorem join_roomsOps (s : ServerState) (sid : SessionId) (room : RoomId) :
    (stepState s (.joinRoom sid room)).roomsOperations =
      fun r => if r = room then some ((s.roomsOperations room).getD [])
               else s.roomsOperations r := rfl

theorem join_currentRoom (s : ServerState) (sid : SessionId) (room : RoomId) :
    (stepState s (.joinRoom sid room)).currentRoom =
      fun x => if x = sid then some room else s.currentRoom x := rfl

theorem join_storeClients (s : ServerState) (sid : SessionId) (room : RoomId) :
    (stepState s (.joinRoom sid room)).storeClients =
      registryJoin s.storeClients room sid := rfl

theorem join_emits (s : ServerState) (sid : SessionId) (room : RoomId) :
    (step s (.joinRoom sid room)).2 =
      [(.toSocket sid, .canvasHistory ((s.roomsOperations room).getD [])),
       (.toSocket sid, .userInfo sid),
       (.toRoom room, .userList (registryJoin s.storeClients room sid room))] := rfl

/-- A join never changes any room's log contents. -/
theorem logOf_join (s : ServerState) (sid : SessionId) (room r : RoomId) :
    logOf (stepState s (.joinRoom sid room)) r = logOf s r := by
  unfold logOf
  rw [join_roomsOps]
  by_cases h : r = room
  · subst h; simp
  · simp [h]

theorem cursor_state (s : ServerState) (sid : SessionId) (pos : CursorPos) :
    stepState s (.cursor sid pos) = s := by
  cases h : s.currentRoom sid <;> simp [stepState, step, handleCursor, h]

theorem cursor_emits_none (s : ServerState) (sid : SessionId) (pos : CursorPos)
    (h : s.currentRoom sid = none) : step s (.cursor sid pos) = (s, []) := by
  simp [step, handleCursor, h]

theorem cursor_emits_some (s : ServerState) (sid : SessionId) (pos : CursorPos)
    (room : RoomId) (h : s.currentRoom sid = some room) :
    step s (.cursor sid pos) =
      (s, [(.toRoom room, .cursor sid pos.x pos.y pos.color)]) := by
  simp [step, handleCursor, h]

theorem disconnect_roomsOps (s : ServerState) (sid : SessionId) :
    (stepState s (.disconnect sid)).roomsOperations = s.roomsOperations := by
  cases h : s.currentRoom sid <;> simp [stepState, step, handleDisconnect, h]

theorem draw_none_room (s : ServerState) (sid : SessionId) (ev : Option DrawEv)
    (h : s.currentRoom sid = none) : step s (.draw sid ev) = (s, []) := by
  simp [step, handleDraw, h]

theorem draw_malformed (s : ServerState) (sid : SessionId) (ev : Option DrawEv)
    (h : wellFormedEv ev = false) : step s (.draw sid ev) = (s, []) := by
  cases hr : s.currentRoom sid with
  | none => simp [step, handleDraw, hr]
  | some room =>
    cases ev with
    | none => simp [step, handleDraw, hr]
    | some e =>
      have h' : (e.prevX.isNum && e.prevY.isNum && e.x.isNum && e.y.isNum) = false := h
      simp [step, handleDraw, hr, h']

theorem draw_ok (s : ServerState) (sid : SessionId) (room : RoomId) (e : DrawEv)
    (h : s.currentRoom sid = some room) (hwf : wellFormedEv (some e) = true) :
    step s (.draw sid (some e)) =
      ({ s with roomsOperations := fun r =>
          if r = room then
            some (logOf s room ++ [mkOp sid e (logOf s room).length])
          else s.roomsOperations r },
        [(.toRoom room, .draw (mkOp sid e (logOf s room).length))]) := by
  have h' : (e.prevX.isNum && e.prevY.isNum && e.x.isNum && e.y.isNum) = true := hwf
  simp [step, handleDraw, h, h']

theorem draw_currentRoom (s : ServerState) (sid : SessionId) (ev : Option DrawEv) :
    (stepState s (.draw sid ev)).currentRoom = s.currentRoom := by
  cases hr : s.currentRoom sid with
  | none => simp [stepState, step, handleDraw, hr]
  | some room =>
    cases ev with
    | none => simp [stepState, step, handleDraw, hr]
    | some e =>
      by_cases h' : (e.prevX.isNum && e.prevY.isNum && e.x.isNum && e.y.isNum) = true
      · simp [stepState, step, handleDraw, hr, h']
      · simp [stepState, step, handleDraw, hr, Bool.eq_false_iff.mpr h']

theorem undo_none_room (s : ServerState) (sid : SessionId)
    (h : s.currentRoom sid = none) : step s (.undo sid) = (s, []) := by
  simp [step, handleUndo, h]

theorem undo_noop (s : ServerState) (sid : SessionId) (room : RoomId)
    (h : s.currentRoom sid = some room)
    (hn : ∀ op ∈ logOf s room, isUndoable sid op = false) :
    step s (.undo sid) = (s, []) := by
  simp [step, handleUndo, h, undoScan_none_of sid _ hn]

theorem undo_found (s : ServerState) (sid : SessionId) (room : RoomId)
    (h : s.currentRoom sid = some room)
    (hex : ∃ op ∈ logOf s room, isUndoable sid op = true) :
    ∃ l₁ o l₂, logOf s room = l₁ ++ o :: l₂ ∧ isUndoable sid o = true ∧
      (∀ x ∈ l₂, isUndoable sid x = false) ∧
      step s (.undo sid) =
        ({ s with roomsOperations := fun r =>
            if r = room then some (l₁ ++ flipOff o :: l₂) else s.roomsOperations r },
          [(.toRoom room, .undoOp o.opId)]) := by
  obtain ⟨l₁, o, l₂, hsplit, ho, hafter, hscan⟩ := undoScan_found sid _ hex
  exact ⟨l₁, o, l₂, hsplit, ho, hafter, by simp [step, handleUndo, h, hscan]⟩

theorem clear_step (s : ServerState) (sid : SessionId) (room : RoomId)
    (h : s.currentRoom sid = some room) :
    step s (.clear sid) =
      ({ s with roomsOperations := fun r =>
          if r = room then some ((logOf s room).map (clearFlip sid))
          else s.roomsOperations r },
        [(.toRoom room,
          .clearUserStrokes (((logOf s room).filter (isUndoable sid)).map (fun op => op.opId)))]) := by
  simp [step, handleClear, h, clearOps_eq]

theorem clear_none_room (s : ServerState) (sid : SessionId)
    (h : s.currentRoom sid = none) : step s (.clear sid) = (s, []) := by
  simp [step, handleClear, h]

theorem redo_none_room (s : ServerState) (sid : SessionId)
    (h : s.currentRoom sid = none) : step s (.redo sid) = (s, []) := by
  simp [step, handleRedo, h]

theorem redo_noop (s : ServerState) (sid : SessionId) (room : RoomId)
    (h : s.currentRoom sid = some room)
    (hn : ∀ op ∈ logOf s room, isRedoable sid op = false) :
    step s (.redo sid) = (s, []) := by
  simp [step, handleRedo, h, redoScan_none_of sid _ hn]

theorem redo_found (s : ServerState) (sid : SessionId) (room : RoomId) (ops' : List Operation) (k : Nat)
    (h : s.currentRoom sid = some room)
    (hscan : redoScan sid (logOf s room) = (ops', some k)) :
    step s (.redo sid) =
      ({ s with roomsOperations := fun r =>
          if r = room then some ops' else s.roomsOperations r },
        [(.toRoom room, .redoOp k)]) := by
  simp [step, handleRedo, h, hscan]

/-! ### Per-request log effects -/

theorem map_opId_undo (s : ServerState) (sid : SessionId) (r : RoomId) :
    (logOf (stepState s (.undo sid)) r).map (fun op => op.opId) =
      (logOf s r).map (fun op => op.opId) := by
  cases h : s.currentRoom sid with
  | none => rw [show stepState s (.undo sid) = s from congrArg Prod.fst (undo_none_room s sid h)]
  | some room =>
    rcases hscan : undoScan sid (logOf s room) with ⟨ops', k⟩
    cases k with
    | none =>
      have : step s (.undo sid) = (s, []) := by simp [step, handleUndo, h, hscan]
      rw [show stepState s (.undo sid) = s from congrArg Prod.fst this]
    | some k =>
      have htouch := undoScan_touch sid (logOf s room)
      rw [hscan] at htouch
      have hstep : stepState s (.undo sid) =
          { s with roomsOperations := fun r' =>
              if r' = room then some ops' else s.roomsOperations r' } := by
        simp [stepState, step, handleUndo, h, hscan]
      rw [hstep]
      unfold logOf
      by_cases hr : r = room
      · subst hr; simpa using map_opId_of_forall₂ htouch
      · simp [hr]

theorem map_opId_redo (s : ServerState) (sid : SessionId) (r : RoomId) :
    (logOf (stepState s (.redo sid)) r).map (fun op => op.opId) =
      (logOf s r).map (fun op => op.opId) := by
  cases h : s.currentRoom sid with
  | none => rw [show stepState s (.redo sid) = s from congrArg Prod.fst (redo_none_room s sid h)]
  | some room =>
    rcases hscan : redoScan sid (logOf s room) with ⟨ops', k⟩
    cases k with
    | none =>
      have : step s (.redo sid) = (s, []) := by simp [step, handleRedo, h, hscan]
      rw [show stepState s (.redo sid) = s from congrArg Prod.fst this]
    | some k =>
      have htouch := redoScan_touch sid (logOf s room)
      rw [hscan] at htouch
      have hstep : stepState s (.redo sid) =
          { s with roomsOperations := fun r' =>
              if r' = room then some ops' else s.roomsOperations r' } := by
        simp [stepState, step, handleRedo, h, hscan]
      rw [hstep]
      unfold logOf
      by_cases hr : r = room
      · subst hr; simpa using map_opId_of_forall₂ htouch
      · simp [hr]

theorem map_opId_clear (s : ServerState) (sid : SessionId) (r : RoomId) :
    (logOf (stepState s (.clear sid)) r).map (fun op => op.opId) =
      (logOf s r).map (fun op => op.opId) := by
  cases h : s.currentRoom sid with
  | none => rw [show stepState s (.clear sid) = s from congrArg Prod.fst (clear_none_room s sid h)]
  | some room =>
    have htouch := clearOps_touch sid (logOf s room)
    rw [clearOps_eq] at htouch
    have hstep : stepState s (.clear sid) =
        { s with roomsOperations := fun r' =>
            if r' = room then some ((logOf s room).map (clearFlip sid))
            else s.roomsOperations r' } :=
      congrArg Prod.fst (clear_step s sid room h)
    rw [hstep]
    unfold logOf
    by_cases hr : r = room
    · subst hr; simpa using map_opId_of_forall₂ htouch
    · simp [hr]

/-- Lists with equal `opId` images have equal length. -/
theorem length_eq_of_map_opId {l l' : List Operation}
    (h : l.map (fun op => op.opId) = l'.map (fun op => op.opId)) :
    l.length = l'.length := by
  have := congrArg List.length h
  simpa using this

/-- Gapless-id invariant: every room's log carries `opId`s `0..n-1` in
order. -/
def GaplessLog (s : ServerState) : Prop :=
  ∀ r, (logOf s r).map (fun op => op.opId) = List.range (logOf s r).length

theorem gapless_init : GaplessLog initState := fun _ => rfl

theorem gapless_step (s : ServerState) (req : Request) (h : GaplessLog s) :
    GaplessLog (stepState s req) := by
  cases req with
  | joinRoom sid room => intro r; rw [logOf_join]; exact h r
  | draw sid ev =>
    intro r
    cases hr : s.currentRoom sid with
    | none =>
      rw [show stepState s (.draw sid ev) = s from congrArg Prod.fst (draw_none_room s sid ev hr)]
      exact h r
    | some room =>
      by_cases hwf : wellFormedEv ev = true
      · cases ev with
        | none => exact absurd hwf (by simp [wellFormedEv])
        | some e =>
          have hstep : stepState s (.draw sid (some e)) =
              { s with roomsOperations := fun r' =>
                  if r' = room then
                    some (logOf s room ++ [mkOp sid e (logOf s room).length])
                  else s.roomsOperations r' } := by
            unfold stepState
            rw [draw_ok s sid room e hr hwf]
          rw [hstep]
          unfold logOf
          dsimp only
          by_cases hr' : r = room
          · subst hr'
            rw [if_pos rfl, Option.getD_some, List.map_append, List.length_append]
            have hroom := h r
            unfold logOf at hroom
            rw [hroom]
            simp [mkOp, List.range_succ]
          · simp only [if_neg hr']
            exact h r
      · rw [show stepState s (.draw sid ev) = s from
          congrArg Prod.fst (draw_malformed s sid ev (Bool.eq_false_iff.mpr hwf))]
        exact h r
  | clear sid =>
    intro r
    have hm := map_opId_clear s sid r
    rw [hm, length_eq_of_map_opId hm]
    exact h r
  | undo sid =>
    intro r
    have hm := map_opId_undo s sid r
    rw [hm, length_eq_of_map_opId hm]
    exact h r
  | redo sid =>
    intro r
    have hm := map_opId_redo s sid r
    rw [hm, length_eq_of_map_opId hm]
    exact h r
  | cursor sid pos => intro r; rw [cursor_state]; exact h r
  | disconnect sid =>
    intro r
    unfold logOf
    rw [disconnect_roomsOps]
    exact h r

theorem gapless_of_reachable {s : ServerState} (hs : Reachable s) : GaplessLog s := by
  induction hs with
  | init => exact gapless_init
  | next req _ ih => exact gapless_step _ req ih

/-! ### Per-request touch relations on the log -/

theorem undo_logOf_touch (s : ServerState) (sid : SessionId) (r : RoomId) :
    List.Forall₂ (ActiveTouch sid) (logOf s r) (logOf (stepState s (.undo sid)) r) := by
  cases h : s.currentRoom sid with
  | none =>
    rw [show stepState s (.undo sid) = s from congrArg Prod.fst (undo_none_room s sid h)]
    exact List.forall₂_same.mpr fun a _ => Or.inl rfl
  | some room =>
    rcases hscan : undoScan sid (logOf s room) with ⟨ops', k⟩
    cases k with
    | none =>
      have hst : step s (.undo sid) = (s, []) := by simp [step, handleUndo, h, hscan]
      rw [show stepState s (.undo sid) = s from congrArg Prod.fst hst]
      exact List.forall₂_same.mpr fun a _ => Or.inl rfl
    | some k =>
      have htouch := undoScan_touch sid (logOf s room)
      rw [hscan] at htouch
      have hstep : stepState s (.undo sid) =
          { s with roomsOperations := fun r' =>
              if r' = room then some ops' else s.roomsOperations r' } := by
        simp [stepState, step, handleUndo, h, hscan]
      rw [hstep]
      unfold logOf
      dsimp only
      by_cases hr : r = room
      · subst hr
        rw [if_pos rfl, Option.getD_some]
        exact htouch
      · rw [if_neg hr]
        exact List.forall₂_same.mpr fun a _ => Or.inl rfl

theorem redo_logOf_touch (s : ServerState) (sid : SessionId) (r : RoomId) :
    List.Forall₂ (ActiveTouch sid) (logOf s r) (logOf (stepState s (.redo sid)) r) := by
  cases h : s.currentRoom sid with
  | none =>
    rw [show stepState s (.redo sid) = s from congrArg Prod.fst (redo_none_room s sid h)]
    exact List.forall₂_same.mpr fun a _ => Or.inl rfl
  | some room =>
    rcases hscan : redoScan sid (logOf s room) with ⟨ops', k⟩
    cases k with
    | none =>
      have hst : step s (.redo sid) = (s, []) := by simp [step, handleRedo, h, hscan]
      rw [show stepState s (.redo sid) = s from congrArg Prod.fst hst]
      exact List.forall₂_same.mpr fun a _ => Or.inl rfl
    | some k =>
      have htouch := redoScan_touch sid (logOf s room)
      rw [hscan] at htouch
      have hstep : stepState s (.redo sid) =
          { s with roomsOperations := fun r' =>
              if r' = room then some ops' else s.roomsOperations r' } := by
        simp [stepState, step, handleRedo, h, hscan]
      rw [hstep]
      unfold logOf
      dsimp only
      by_cases hr : r = room
      · subst hr
        rw [if_pos rfl, Option.getD_some]
        exact htouch
      · rw [if_neg hr]
        exact List.forall₂_same.mpr fun a _ => Or.inl rfl

theorem clear_logOf_touch (s : ServerState) (sid : SessionId) (r : RoomId) :
    List.Forall₂ (ActiveTouch sid) (logOf s r) (logOf (stepState s (.clear sid)) r) := by
  cases h : s.currentRoom sid with
  | none =>
    rw [show stepState s (.clear sid) = s from congrArg Prod.fst (clear_none_room s sid h)]
    exact List.forall₂_same.mpr fun a _ => Or.inl rfl
  | some room =>
    have htouch := clearOps_touch sid (logOf s room)
    rw [clearOps_eq] at htouch
    have hstep : stepState s (.clear sid) =
        { s with roomsOperations := fun r' =>
            if r' = room then some ((logOf s room).map (clearFlip sid))
            else s.roomsOperations r' } :=
      congrArg Prod.fst (clear_step s sid room h)
    rw [hstep]
    unfold logOf
    dsimp only
    by_cases hr : r = room
    · subst hr
      rw [if_pos rfl, Option.getD_some]
      exact htouch
    · rw [if_neg hr]
      exact List.forall₂_same.mpr fun a _ => Or.inl rfl

/-! ### Membership bookkeeping -/

/-- No session appears in the member lists of two distinct rooms. -/
def AtMostOneRoom (m : RoomId → List SessionId) : Prop :=
  ∀ x r₁ r₂, x ∈ m r₁ → x ∈ m r₂ → r₁ = r₂

theorem registryJoin_self_mem (m : RoomId → List SessionId) (room : RoomId)
    (sid : SessionId) : sid ∈ registryJoin m room sid room := by
  unfold registryJoin
  rw [if_pos rfl]
  by_cases hc : (m room).contains sid = true
  · rw [if_pos hc]; simpa using hc
  · rw [if_neg hc]; simp

theorem registryJoin_not_mem_other (m : RoomId → List SessionId) (room : RoomId)
    (sid : SessionId) (r : RoomId) (h : r ≠ room) :
    sid ∉ registryJoin m room sid r := by
  unfold registryJoin
  rw [if_neg h]
  simp [List.mem_filter]

theorem registryJoin_mem_of_ne (m : RoomId → List SessionId) (room : RoomId)
    (sid : SessionId) (r : RoomId) (x : SessionId) (hx : x ≠ sid) :
    x ∈ registryJoin m room sid r ↔ x ∈ m r := by
  unfold registryJoin
  by_cases h : r = room
  · subst h
    rw [if_pos rfl]
    by_cases hc : (m r).contains sid = true
    · rw [if_pos hc]
    · rw [if_neg hc]; simp [hx]
  · rw [if_neg h]
    simp [List.mem_filter, hx]

theorem registryJoin_atMostOne (m : RoomId → List SessionId) (room : RoomId)
    (sid : SessionId) (h : AtMostOneRoom m) :
    AtMostOneRoom (registryJoin m room sid) := by
  intro x r₁ r₂ h₁ h₂
  by_cases hx : x = sid
  · subst hx
    by_cases hr₁ : r₁ = room
    · by_cases hr₂ : r₂ = room
      · rw [hr₁, hr₂]
      · exact absurd h₂ (registryJoin_not_mem_other m room x r₂ hr₂)
    · exact absurd h₁ (registryJoin_not_mem_other m room x r₁ hr₁)
  · exact h x r₁ r₂ ((registryJoin_mem_of_ne m room sid r₁ x hx).mp h₁)
      ((registryJoin_mem_of_ne m room sid r₂ x hx).mp h₂)

theorem registryLeave_subset (m : RoomId → List SessionId) (room : RoomId)
    (sid : SessionId) (r : RoomId) (x : SessionId)
    (h : x ∈ registryLeave m room sid r) : x ∈ m r := by
  unfold registryLeave at h
  by_cases hr : r = room
  · rw [if_pos hr] at h
    subst hr
    exact List.mem_of_mem_filter h
  · rwa [if_neg hr] at h

theorem registryLeave_atMostOne (m : RoomId → List SessionId) (room : RoomId)
    (sid : SessionId) (h : AtMostOneRoom m) :
    AtMostOneRoom (registryLeave m room sid) := fun x r₁ r₂ h₁ h₂ =>
  h x r₁ r₂ (registryLeave_subset m room sid r₁ x h₁)
    (registryLeave_subset m room sid r₂ x h₂)

theorem registryJoin_idem (m : RoomId → List SessionId) (room : RoomId)
    (sid : SessionId) (r : RoomId) :
    registryJoin (registryJoin m room sid) room sid r = registryJoin m room sid r := by
  unfold registryJoin
  by_cases h : r = room
  · subst h
    rw [if_pos rfl, if_pos rfl]
    have hmem : sid ∈ (if (m r).contains sid = true then m r else m r ++ [sid]) := by
      by_cases hc : (m r).contains sid = true
      · rw [if_pos hc]; simpa using hc
      · rw [if_neg hc]; simp
    rw [if_pos (by simpa using hmem)]
  · rw [if_neg h, if_neg h]
    simp [List.filter_filter]

/-! ### Which handlers touch the member lists -/

theorem draw_storeClients (s : ServerState) (sid : SessionId) (ev : Option DrawEv) :
    (stepState s (.draw sid ev)).storeClients = s.storeClients := by
  cases hr : s.currentRoom sid with
  | none => simp [stepState, step, handleDraw, hr]
  | some room =>
    cases ev with
    | none => simp [stepState, step, handleDraw, hr]
    | some e =>
      by_cases h' : (e.prevX.isNum && e.prevY.isNum && e.x.isNum && e.y.isNum) = true
      · simp [stepState, step, handleDraw, hr, h']
      · simp [stepState, step, handleDraw, hr, Bool.eq_false_iff.mpr h']

theorem clear_storeClients (s : ServerState) (sid : SessionId) :
    (stepState s (.clear sid)).storeClients = s.storeClients := by
  cases hr : s.currentRoom sid with
  | none => simp [stepState, step, handleClear, hr]
  | some room => simp [stepState, step, handleClear, hr]

theorem undo_storeClients (s : ServerState) (sid : SessionId) :
    (stepState s (.undo sid)).storeClients = s.storeClients := by
  cases hr : s.currentRoom sid with
  | none => simp [stepState, step, handleUndo, hr]
  | some room =>
    rcases hscan : undoScan sid (logOf s room) with ⟨ops', k⟩
    cases k with
    | none => simp [stepState, step, handleUndo, hr, hscan]
    | some k => simp [stepState, step, handleUndo, hr, hscan]

theorem redo_storeClients (s : ServerState) (sid : SessionId) :
    (stepState s (.redo sid)).storeClients = s.storeClients := by
  cases hr : s.currentRoom sid with
  | none => simp [stepState, step, handleRedo, hr]
  | some room =>
    rcases hscan : redoScan sid (logOf s room) with ⟨ops', k⟩
    cases k with
    | none => simp [stepState, step, handleRedo, hr, hscan]
    | some k => simp [stepState, step, handleRedo, hr, hscan]

theorem disconnect_state_none (s : ServerState) (sid : SessionId)
    (h : s.currentRoom sid = none) : stepState s (.disconnect sid) = s := by
  simp [stepState, step, handleDisconnect, h]

theorem disconnect_storeClients_some (s : ServerState) (sid : SessionId)
    (room : RoomId) (h : s.currentRoom sid = some room) :
    (stepState s (.disconnect sid)).storeClients =
      registryLeave s.storeClients room sid := by
  simp [stepState, step, handleDisconnect, h]

theorem atMostOne_step (s : ServerState) (req : Request)
    (h : AtMostOneRoom s.storeClients) :
    AtMostOneRoom (stepState s req).storeClients := by
  cases req with
  | joinRoom sid room =>
    rw [join_storeClients]
    exact registryJoin_atMostOne s.storeClients room sid h
  | draw sid ev => rw [draw_storeClients]; exact h
  | clear sid => rw [clear_storeClients]; exact h
  | undo sid => rw [undo_storeClients]; exact h
  | redo sid => rw [redo_storeClients]; exact h
  | cursor sid pos => rw [cursor_state]; exact h
  | disconnect sid =>
    cases hr : s.currentRoom sid with
    | none => rw [disconnect_state_none s sid hr]; exact h
    | some room =>
      rw [disconnect_storeClients_some s sid room hr]
      exact registryLeave_atMostOne s.storeClients room sid h

theorem atMostOne_of_reachable {s : ServerState} (hs : Reachable s) :
    AtMostOneRoom s.storeClients := by
  induction hs with
  | init => intro x r₁ r₂ h₁ _; exact absurd h₁ (List.not_mem_nil x)
  | next req _ ih => exact atMostOne_step _ req ih

/-! ### Isolation of one user's requests from another user's operations -/

theorem filterB_step (s : ServerState) (A B : SessionId) (hB : B ≠ A)
    (req : Request) (hreq : isMutationBy A req = true) (r : RoomId) :
    (logOf (stepState s req) r).filter (fun op => op.userId == B) =
      (logOf s r).filter (fun op => op.userId == B) := by
  cases req with
  | joinRoom sid room => simp [isMutationBy] at hreq
  | cursor sid pos => simp [isMutationBy] at hreq
  | disconnect sid => simp [isMutationBy] at hreq
  | undo sid =>
    have hsid : sid = A := by simpa [isMutationBy] using hreq
    subst hsid
    exact filter_user_of_forall₂ hB (undo_logOf_touch s sid r)
  | redo sid =>
    have hsid : sid = A := by simpa [isMutationBy] using hreq
    subst hsid
    exact filter_user_of_forall₂ hB (redo_logOf_touch s sid r)
  | clear sid =>
    have hsid : sid = A := by simpa [isMutationBy] using hreq
    subst hsid
    exact filter_user_of_forall₂ hB (clear_logOf_touch s sid r)
  | draw sid ev =>
    have hsid : sid = A := by simpa [isMutationBy] using hreq
    subst hsid
    cases hr : s.currentRoom sid with
    | none =>
      rw [show stepState s (.draw sid ev) = s from
        congrArg Prod.fst (draw_none_room s sid ev hr)]
    | some room =>
      by_cases hwf : wellFormedEv ev = true
      · cases ev with
        | none => exact absurd hwf (by simp [wellFormedEv])
        | some e =>
          have hstep : stepState s (.draw sid (some e)) =
              { s with roomsOperations := fun r' =>
                  if r' = room then
                    some (logOf s room ++ [mkOp sid e (logOf s room).length])
                  else s.roomsOperations r' } := by
            unfold stepState
            rw [draw_ok s sid room e hr hwf]
          rw [hstep]
          unfold logOf
          dsimp only
          by_cases hr' : r = room
          · subst hr'
            rw [if_pos rfl, Option.getD_some, List.filter_append]
            have h2 : (sid == B) = false := beq_eq_false_iff_ne.mpr (Ne.symm hB)
            simp [mkOp, h2]
          · rw [if_neg hr']
      · rw [show stepState s (.draw sid ev) = s from
          congrArg Prod.fst (draw_malformed s sid ev (Bool.eq_false_iff.mpr hwf))]

/-! ### Last helpers before the claims -/

theorem clearFlip_eq_ite (sid : SessionId) (op : Operation) :
    clearFlip sid op = if op.userId = sid ∧ op.active = true then flipOff op else op := by
  unfold clearFlip isUndoable
  by_cases h1 : op.userId = sid
  · by_cases h2 : op.active = true
    · simp [h1, h2]
    · simp [h1, Bool.eq_false_iff.mpr h2, h2]
  · simp [h1, beq_eq_false_iff_ne.mpr h1]

theorem flipOn_flipOff {op : Operation} (h : op.active = true) :
    flipOn (flipOff op) = op := by
  cases op
  unfold flipOn flipOff
  simp_all

/-- Any sequence made only of join requests leaves every room's log
contents unchanged. -/
theorem logOf_join_seq (s : ServerState) :
    ∀ reqs : List Request,
      (∀ q ∈ reqs, ∃ sid' room', q = .joinRoom sid' room') →
      ∀ r, logOf (runState s reqs) r = logOf s r
  | [], _, _ => rfl
  | q :: rest, hq, r => by
    obtain ⟨sid', room', rfl⟩ := hq q (List.mem_cons_self _ _)
    have h1 : logOf (runState (stepState s (.joinRoom sid' room')) rest) r =
        logOf (stepState s (.joinRoom sid' room')) r :=
      logOf_join_seq _ rest (fun q' hq' => hq q' (List.mem_cons_of_mem _ hq')) r
    calc logOf (runState s (.joinRoom sid' room' :: rest)) r
        = logOf (runState (stepState s (.joinRoom sid' room')) rest) r := rfl
      _ = logOf (stepState s (.joinRoom sid' room')) r := h1
      _ = logOf s r := logOf_join s sid' room' r

/-! ## The claims -/

/-- Claim C1: cross-user isolation — after any sequence of draw, undo,
redo, and clear requests issued by user `A`, every operation authored by a
different user `B` is unchanged (in particular its `active` flag), in
every room: the sublist of `B`-authored operations of every room's log is
exactly what it was before the sequence. -/
theorem cross_user_isolation (A B : SessionId) (hB : B ≠ A) :
    ∀ reqs : List Request, (∀ req ∈ reqs, isMutationBy A req = true) →
      ∀ (s : ServerState) (r : RoomId),
        (logOf (runState s reqs) r).filter (fun op => op.userId == B) =
          (logOf s r).filter (fun op => op.userId == B)
  | [], _, _, _ => rfl
  | req :: rest, hreqs, s, r => by
    have h2 := cross_user_isolation A B hB rest
      (fun q hq => hreqs q (List.mem_cons_of_mem _ hq)) (stepState s req) r
    have h1 := filterB_step s A B hB req (hreqs req (List.mem_cons_self _ _)) r
    calc (logOf (runState s (req :: rest)) r).filter (fun op => op.userId == B)
        = (logOf (runState (stepState s req) rest) r).filter (fun op => op.userId == B) := rfl
      _ = (logOf (stepState s req) r).filter (fun op => op.userId == B) := h2
      _ = (logOf s r).filter (fun op => op.userId == B) := h1

/-- Witness for C1: with alice and bob joined to room "r", a draw followed
by an undo issued by alice leaves bob's (empty) sublist of operations in
"r" untouched. -/
theorem cross_user_isolation_witness :
    ("bob" : SessionId) ≠ "alice" ∧
    (logOf (runState (stepState (stepState initState (.joinRoom "alice" "r"))
          (.joinRoom "bob" "r"))
        [.draw "alice" (some ⟨.num 0, .num 0, .num 5, .num 5, .str "red", .num 3,
          .str "brush", .str "c1"⟩), .undo "alice"]) "r").filter
        (fun op => op.userId == "bob") =
      (logOf (stepState (stepState initState (.joinRoom "alice" "r"))
          (.joinRoom "bob" "r")) "r").filter (fun op => op.userId == "bob") :=
  ⟨by decide,
    cross_user_isolation "alice" "bob" (by decide) _ (by decide) _ "r"⟩

/-- Claim C2: gapless id invariant — in every reachable state, every
room's log carries `opId` values exactly `0..n-1` in append order, no
matter how many undo/redo/clear requests were processed. -/
theorem opId_gapless (s : ServerState) (hs : Reachable s) (r : RoomId) :
    (logOf s r).map (fun op => op.opId) = List.range (logOf s r).length :=
  gapless_of_reachable hs r

/-- A concrete well-formed draw event used by witnesses. -/
def evA : DrawEv :=
  { prevX := .num 0, prevY := .num 0, x := .num 5, y := .num 5,
    color := .str "red", size := .num 3, tool := .str "brush", clientId := .str "c1" }

/-- A concrete cursor position used by witnesses. -/
def posA : CursorPos := { x := .num 1, y := .num 2, color := .str "red" }

/-- State after alice joined room "r". -/
def sJoined : ServerState := stepState initState (.joinRoom "alice" "r")

/-- State after alice, then bob, joined room "r". -/
def sTwo : ServerState := stepState sJoined (.joinRoom "bob" "r")

/-- State after alice and bob joined room "r" and alice drew one segment. -/
def sDrawn : ServerState := stepState sTwo (.draw "alice" (some evA))

theorem sJoined_reachable : Reachable sJoined := by
  unfold sJoined
  exact Reachable.next _ Reachable.init

theorem sTwo_reachable : Reachable sTwo := by
  unfold sTwo
  exact Reachable.next _ sJoined_reachable

theorem sDrawn_reachable : Reachable sDrawn := by
  unfold sDrawn
  exact Reachable.next _ sTwo_reachable

/-- Witness for C2: in the concrete reachable state where alice drew one
segment in room "r", the log's `opId`s are `0..n-1`. -/
theorem opId_gapless_witness :
    (logOf sDrawn "r").map (fun op => op.opId) = List.range (logOf sDrawn "r").length :=
  opId_gapless sDrawn sDrawn_reachable "r"

/-- Claim C3: undo semantics — for a joined user, if the user has no
active operation in the room the undo request changes nothing and emits
nothing; otherwise the log decomposes around the last active operation of
that user, exactly that operation is flipped to inactive, every other
room is untouched, and the operation's `opId` is broadcast to the room. -/
theorem undo_semantics (s : ServerState) (sid : SessionId) (r : RoomId)
    (h : s.currentRoom sid = some r) :
    ((∀ op ∈ logOf s r, ¬(op.userId = sid ∧ op.active = true)) →
      step s (.undo sid) = (s, [])) ∧
    ((∃ op ∈ logOf s r, op.userId = sid ∧ op.active = true) →
      ∃ l₁ o l₂, logOf s r = l₁ ++ o :: l₂ ∧ o.userId = sid ∧ o.active = true ∧
        (∀ x ∈ l₂, ¬(x.userId = sid ∧ x.active = true)) ∧
        logOf (stepState s (.undo sid)) r = l₁ ++ flipOff o :: l₂ ∧
        (∀ r', r' ≠ r → (stepState s (.undo sid)).roomsOperations r' = s.roomsOperations r') ∧
        (step s (.undo sid)).2 = [(.toRoom r, .undoOp o.opId)]) := by
  have hiff : ∀ op : Operation,
      (op.userId = sid ∧ op.active = true) ↔ isUndoable sid op = true := by
    intro op
    simp [isUndoable, Bool.and_eq_true]
  constructor
  · intro hnone
    exact undo_noop s sid r h fun op hop =>
      Bool.eq_false_iff.mpr fun hc => hnone op hop ((hiff op).mpr hc)
  · intro hex
    obtain ⟨op, hop, hprop⟩ := hex
    obtain ⟨l₁, o, l₂, hsplit, ho, hafter, hstep⟩ :=
      undo_found s sid r h ⟨op, hop, (hiff op).mp hprop⟩
    have hoprop := (hiff o).mpr ho
    refine ⟨l₁, o, l₂, hsplit, hoprop.1, hoprop.2,
      fun x hx hc => by
        have hbool := (hiff x).mp hc
        rw [hafter x hx] at hbool
        exact Bool.false_ne_true hbool, ?_, ?_, ?_⟩
    · rw [show stepState s (.undo sid) = _ from congrArg Prod.fst hstep]
      unfold logOf
      dsimp only
      rw [if_pos rfl, Option.getD_some]
    · intro r' hr'
      rw [show stepState s (.undo sid) = _ from congrArg Prod.fst hstep]
      dsimp only
      rw [if_neg hr']
    · rw [show (step s (.undo sid)).2 = _ from congrArg Prod.snd hstep]

/-- Witness for C3: in the concrete state where alice drew one operation
in room "r", both branches of the undo characterization are available at
that state; applying the claim theorem instantiates them. -/
theorem undo_semantics_witness :
    sDrawn.currentRoom "alice" = some "r" ∧
    (((∀ op ∈ logOf sDrawn "r", ¬(op.userId = "alice" ∧ op.active = true)) →
      step sDrawn (.undo "alice") = (sDrawn, [])) ∧
    ((∃ op ∈ logOf sDrawn "r", op.userId = "alice" ∧ op.active = true) →
      ∃ l₁ o l₂, logOf sDrawn "r" = l₁ ++ o :: l₂ ∧ o.userId = "alice" ∧ o.active = true ∧
        (∀ x ∈ l₂, ¬(x.userId = "alice" ∧ x.active = true)) ∧
        logOf (stepState sDrawn (.undo "alice")) "r" = l₁ ++ flipOff o :: l₂ ∧
        (∀ r', r' ≠ "r" →
          (stepState sDrawn (.undo "alice")).roomsOperations r' = sDrawn.roomsOperations r') ∧
        (step sDrawn (.undo "alice")).2 = [(.toRoom "r", .undoOp o.opId)])) :=
  ⟨by decide, undo_semantics sDrawn "alice" "r" (by decide)⟩

/-- Claim C4: clear semantics — for a joined user, a clear request flips
exactly the user's active operations to inactive (pointwise, leaving all
other operations and all other rooms unchanged) and always broadcasts the
list of affected `opId`s — in log order, which in a reachable state is
strictly ascending; with no active operation the broadcast carries the
empty list. -/
theorem clear_semantics (s : ServerState) (hs : Reachable s) (sid : SessionId)
    (r : RoomId) (h : s.currentRoom sid = some r) :
    logOf (stepState s (.clear sid)) r =
      (logOf s r).map
        (fun op => if op.userId = sid ∧ op.active = true then flipOff op else op) ∧
    (∀ r', r' ≠ r → (stepState s (.clear sid)).roomsOperations r' = s.roomsOperations r') ∧
    (step s (.clear sid)).2 =
      [(.toRoom r, .clearUserStrokes
        (((logOf s r).filter (isUndoable sid)).map (fun op => op.opId)))] ∧
    List.Sorted (· < ·) (((logOf s r).filter (isUndoable sid)).map (fun op => op.opId)) := by
  have hstep := clear_step s sid r h
  refine ⟨?_, ?_, congrArg Prod.snd hstep, ?_⟩
  · rw [show stepState s (.clear sid) = _ from congrArg Prod.fst hstep]
    unfold logOf
    dsimp only
    rw [if_pos rfl, Option.getD_some]
    exact List.map_congr_left fun op _ => clearFlip_eq_ite sid op
  · intro r' hr'
    rw [show stepState s (.clear sid) = _ from congrArg Prod.fst hstep]
    dsimp only
    rw [if_neg hr']
  · have hg := gapless_of_reachable hs r
    have hsub : List.Sublist
        (((logOf s r).filter (isUndoable sid)).map (fun op => op.opId))
        ((logOf s r).map (fun op => op.opId)) :=
      (List.filter_sublist _).map _
    have hsorted : List.Sorted (· < ·) ((logOf s r).map (fun op => op.opId)) := by
      rw [hg]; exact List.sorted_lt_range _
    exact hsorted.sublist hsub

/-- Witness for C4: alice clears her single drawn operation in room "r";
the claim theorem instantiates at that concrete reachable state. -/
theorem clear_semantics_witness :
    sDrawn.currentRoom "alice" = some "r" ∧
    (logOf (stepState sDrawn (.clear "alice")) "r" =
      (logOf sDrawn "r").map
        (fun op => if op.userId = "alice" ∧ op.active = true then flipOff op else op) ∧
    (∀ r', r' ≠ "r" →
      (stepState sDrawn (.clear "alice")).roomsOperations r' = sDrawn.roomsOperations r') ∧
    (step sDrawn (.clear "alice")).2 =
      [(.toRoom "r", .clearUserStrokes
        (((logOf sDrawn "r").filter (isUndoable "alice")).map (fun op => op.opId)))] ∧
    List.Sorted (· < ·)
      (((logOf sDrawn "r").filter (isUndoable "alice")).map (fun op => op.opId))) :=
  ⟨by decide, clear_semantics sDrawn sDrawn_reachable "alice" "r" (by decide)⟩

/-- Claim C5 (amended): draw–undo–redo round trip — provided the user has
no inactive operation already sitting in the room's log (every operation
of that user is active), drawing, undoing, then redoing restores the
appended operation: the final log is the original log plus that operation
with `active = true` and the geometry and `opId` assigned at the append.
Without that proviso the property fails (see the counterexample): redo
scans forward and reactivates the user's oldest inactive operation, which
need not be the one just undone. -/
theorem draw_undo_redo_roundtrip (s : ServerState) (sid : SessionId) (r : RoomId)
    (e : DrawEv) (h : s.currentRoom sid = some r)
    (hwf : wellFormedEv (some e) = true)
    (hall : ∀ op ∈ logOf s r, op.userId = sid → op.active = true) :
    logOf (stepState (stepState (stepState s (.draw sid (some e))) (.undo sid))
        (.redo sid)) r =
      logOf s r ++ [mkOp sid e (logOf s r).length] := by
  have ho : isUndoable sid (mkOp sid e (logOf s r).length) = true := by
    simp [isUndoable, mkOp]
  have h1 : stepState s (.draw sid (some e)) =
      { s with roomsOperations := fun r' =>
          if r' = r then some (logOf s r ++ [mkOp sid e (logOf s r).length])
          else s.roomsOperations r' } := by
    unfold stepState
    rw [draw_ok s sid r e h hwf]
  obtain ⟨s₁, hs₁⟩ : ∃ s₁, stepState s (.draw sid (some e)) = s₁ := ⟨_, rfl⟩
  have hc1 : s₁.currentRoom sid = some r := by rw [← hs₁, h1]; exact h
  have hlog1 : logOf s₁ r = logOf s r ++ [mkOp sid e (logOf s r).length] := by
    rw [← hs₁, h1]; unfold logOf; dsimp only; rw [if_pos rfl, Option.getD_some]
  have hscan2 : undoScan sid (logOf s₁ r) =
      (logOf s r ++ [flipOff (mkOp sid e (logOf s r).length)],
        some (mkOp sid e (logOf s r).length).opId) := by
    rw [hlog1]; exact undoScan_last sid _ ho _
  have h2 : stepState s₁ (.undo sid) =
      { s₁ with roomsOperations := fun r' =>
          if r' = r then
            (some (logOf s r ++ [flipOff (mkOp sid e (logOf s r).length)]))
          else s₁.roomsOperations r' } := by
    simp [stepState, step, handleUndo, hc1, hscan2]
  obtain ⟨s₂, hs₂⟩ : ∃ s₂, stepState s₁ (.undo sid) = s₂ := ⟨_, rfl⟩
  have hc2 : s₂.currentRoom sid = some r := by rw [← hs₂, h2]; exact hc1
  have hlog2 : logOf s₂ r =
      logOf s r ++ [flipOff (mkOp sid e (logOf s r).length)] := by
    rw [← hs₂, h2]; unfold logOf; dsimp only; rw [if_pos rfl, Option.getD_some]
  have hpre : ∀ x ∈ logOf s r, isRedoable sid x = false := by
    intro x hx
    by_cases hu : x.userId = sid
    · simp [isRedoable, hu, hall x hx hu]
    · simp [isRedoable, beq_eq_false_iff_ne.mpr hu]
  have hro : isRedoable sid (flipOff (mkOp sid e (logOf s r).length)) = true := by
    simp [isRedoable, flipOff, mkOp]
  have hscan3 : redoScan sid (logOf s₂ r) =
      (logOf s r ++ [mkOp sid e (logOf s r).length],
        some (flipOff (mkOp sid e (logOf s r).length)).opId) := by
    rw [hlog2]
    have hsk := redoScan_skip sid (flipOff (mkOp sid e (logOf s r).length)) hro
      (logOf s r) hpre []
    rw [flipOn_flipOff (by simp [mkOp])] at hsk
    exact hsk
  have h3 : stepState s₂ (.redo sid) =
      { s₂ with roomsOperations := fun r' =>
          if r' = r then
            (some (logOf s r ++ [mkOp sid e (logOf s r).length]))
          else s₂.roomsOperations r' } := by
    simp [stepState, step, handleRedo, hc2, hscan3]
  rw [hs₁, hs₂, h3]
  unfold logOf
  dsimp only
  rw [if_pos rfl, Option.getD_some]

/-- Witness for C5's amended theorem: alice and bob are joined to "r" with
an empty log, so the proviso holds vacuously; alice's draw–undo–redo ends
with her operation active, as appended. -/
theorem draw_undo_redo_roundtrip_witness :
    sTwo.currentRoom "alice" = some "r" ∧ wellFormedEv (some evA) = true ∧
    logOf (stepState (stepState (stepState sTwo (.draw "alice" (some evA)))
        (.undo "alice")) (.redo "alice")) "r" =
      logOf sTwo "r" ++ [mkOp "alice" evA (logOf sTwo "r").length] :=
  ⟨by decide, by decide,
    draw_undo_redo_roundtrip sTwo "alice" "r" evA (by decide) (by decide) (by decide)⟩

/-- State reached by: alice joins "r", draws one segment, undoes it — so
alice owns exactly one operation (`opId` 0) and it is inactive. -/
def sUndone : ServerState :=
  runState initState [.joinRoom "alice" "r", .draw "alice" (some evA), .undo "alice"]

/-- Counterexample to C5 as stated: from the reachable state `sUndone`
(alice has an older inactive operation, `opId` 0), alice performs draw
(appending `opId` 1, active), undo, then redo.  The redo reactivates the
oldest inactive operation (`opId` 0), not the one just undone: the final
log is `[(0, true), (1, false)]`, so the freshly drawn operation ends with
`active = false`, contradicting the claimed round trip. -/
theorem draw_undo_redo_counterexample :
    sUndone.currentRoom "alice" = some "r" ∧
    wellFormedEv (some evA) = true ∧
    (logOf sUndone "r").map (fun op => (op.opId, op.active)) = [(0, false)] ∧
    (logOf (stepState (stepState (stepState sUndone (.draw "alice" (some evA)))
        (.undo "alice")) (.redo "alice")) "r").map (fun op => (op.opId, op.active)) =
      [(0, true), (1, false)] ∧
    logOf (stepState (stepState (stepState sUndone (.draw "alice" (some evA)))
        (.undo "alice")) (.redo "alice")) "r" ≠
      logOf sUndone "r" ++ [mkOp "alice" evA (logOf sUndone "r").length] := by
  decide

/-- Claim C6: single-room membership — in every reachable state no session
sits in two distinct rooms' member lists; a join puts the session in the
target room's member list and removes it from every other room's list;
and a repeated identical join leaves the member lists unchanged
(idempotence).  The `rooms.js` module holding the member lists is absent
from the sources, so `registryJoin`/`registryLeave` are modelled from the
spec (see their doc comments). -/
theorem single_room_membership (s : ServerState) (hs : Reachable s)
    (sid x : SessionId) (room r₁ r₂ : RoomId) :
    (x ∈ s.storeClients r₁ → x ∈ s.storeClients r₂ → r₁ = r₂) ∧
    sid ∈ (stepState s (.joinRoom sid room)).storeClients room ∧
    (r₁ ≠ room → sid ∉ (stepState s (.joinRoom sid room)).storeClients r₁) ∧
    (stepState (stepState s (.joinRoom sid room)) (.joinRoom sid room)).storeClients r₁ =
      (stepState s (.joinRoom sid room)).storeClients r₁ := by
  refine ⟨fun h₁ h₂ => atMostOne_of_reachable hs x r₁ r₂ h₁ h₂, ?_, ?_, ?_⟩
  · rw [join_storeClients]
    exact registryJoin_self_mem s.storeClients room sid
  · intro hne
    rw [join_storeClients]
    exact registryJoin_not_mem_other s.storeClients room sid r₁ hne
  · rw [join_storeClients, join_storeClients]
    exact registryJoin_idem s.storeClients room sid r₁

/-- Witness for C6: alice re-joins room "r" from the two-user state; the
membership facts instantiate at concrete rooms. -/
theorem single_room_membership_witness :
    (("alice" : SessionId) ∈ sTwo.storeClients "r" →
      ("alice" : SessionId) ∈ sTwo.storeClients "q" → "r" = "q") ∧
    ("alice" : SessionId) ∈ (stepState sTwo (.joinRoom "alice" "q")).storeClients "q" ∧
    (("r" : RoomId) ≠ "q" →
      ("alice" : SessionId) ∉ (stepState sTwo (.joinRoom "alice" "q")).storeClients "r") ∧
    (stepState (stepState sTwo (.joinRoom "alice" "q")) (.joinRoom "alice" "q")).storeClients "r" =
      (stepState sTwo (.joinRoom "alice" "q")).storeClients "r" :=
  single_room_membership sTwo sTwo_reachable "alice" "alice" "q" "r" "q"

/-- Claim C7: immutability frame — one request turns every room's log into
the old log (with every operation's `userId`, geometry, `opId`, `clientId`
and position intact once the `active` flag is masked out) possibly
extended at the end; so `active` is the only field any request can change
in an existing entry, and entries are never reordered or removed. -/
theorem immutable_fields_frame (s : ServerState) (req : Request) (r : RoomId) :
    ∃ ext, (logOf (stepState s req) r).map stripActive =
      (logOf s r).map stripActive ++ ext := by
  cases req with
  | joinRoom sid room => exact ⟨[], by rw [logOf_join]; simp⟩
  | undo sid =>
    exact ⟨[], by rw [map_strip_of_forall₂ (undo_logOf_touch s sid r)]; simp⟩
  | redo sid =>
    exact ⟨[], by rw [map_strip_of_forall₂ (redo_logOf_touch s sid r)]; simp⟩
  | clear sid =>
    exact ⟨[], by rw [map_strip_of_forall₂ (clear_logOf_touch s sid r)]; simp⟩
  | cursor sid pos => exact ⟨[], by rw [cursor_state]; simp⟩
  | disconnect sid =>
    refine ⟨[], ?_⟩
    unfold logOf
    rw [disconnect_roomsOps]
    simp
  | draw sid ev =>
    cases hr : s.currentRoom sid with
    | none =>
      exact ⟨[], by
        rw [show stepState s (.draw sid ev) = s from
          congrArg Prod.fst (draw_none_room s sid ev hr)]
        simp⟩
    | some room =>
      by_cases hwf : wellFormedEv ev = true
      · cases ev with
        | none => exact absurd hwf (by simp [wellFormedEv])
        | some e =>
          have hstep : stepState s (.draw sid (some e)) =
              { s with roomsOperations := fun r' =>
                  if r' = room then
                    some (logOf s room ++ [mkOp sid e (logOf s room).length])
                  else s.roomsOperations r' } := by
            unfold stepState
            rw [draw_ok s sid room e hr hwf]
          by_cases hr' : r = room
          · subst hr'
            refine ⟨[stripActive (mkOp sid e (logOf s r).length)], ?_⟩
            rw [hstep]
            unfold logOf
            dsimp only
            rw [if_pos rfl, Option.getD_some, List.map_append]
            rfl
          · refine ⟨[], ?_⟩
            rw [hstep]
            unfold logOf
            dsimp only
            rw [if_neg hr']
            simp
      · exact ⟨[], by
          rw [show stepState s (.draw sid ev) = s from
            congrArg Prod.fst (draw_malformed s sid ev (Bool.eq_false_iff.mpr hwf))]
          simp⟩

/-- Claim C8: draw drop conditions — a draw from a session with no current
room, or whose payload is falsy or has non-numeric geometry, leaves the
state untouched and broadcasts nothing (the handler is a total function,
so no crash); a well-formed draw from a joined session appends exactly
one operation to that room's log and broadcasts it. -/
theorem draw_drop_conditions (s : ServerState) (sid : SessionId)
    (ev : Option DrawEv) (r : RoomId) :
    (s.currentRoom sid = none → step s (.draw sid ev) = (s, [])) ∧
    (wellFormedEv ev = false → step s (.draw sid ev) = (s, [])) ∧
    (s.currentRoom sid = some r → ∀ e, ev = some e → wellFormedEv ev = true →
      logOf (stepState s (.draw sid ev)) r =
        logOf s r ++ [mkOp sid e (logOf s r).length] ∧
      (∀ r', r' ≠ r → (stepState s (.draw sid ev)).roomsOperations r' = s.roomsOperations r') ∧
      (step s (.draw sid ev)).2 = [(.toRoom r, .draw (mkOp sid e (logOf s r).length))]) := by
  refine ⟨draw_none_room s sid ev, draw_malformed s sid ev, ?_⟩
  intro h e he hwf
  subst he
  have hstep : stepState s (.draw sid (some e)) =
      { s with roomsOperations := fun r' =>
          if r' = r then some (logOf s r ++ [mkOp sid e (logOf s r).length])
          else s.roomsOperations r' } := by
    unfold stepState
    rw [draw_ok s sid r e h hwf]
  refine ⟨?_, ?_, ?_⟩
  · rw [hstep]
    unfold logOf
    dsimp only
    rw [if_pos rfl, Option.getD_some]
  · intro r' hr'
    rw [hstep]
    dsimp only
    rw [if_neg hr']
  · exact congrArg Prod.snd (draw_ok s sid r e h hwf)

/-- Witness for C8: a falsy draw payload from a joined session is dropped
with the state unchanged and no broadcast, and a well-formed payload from
the same session is appended and broadcast. -/
theorem draw_drop_conditions_witness :
    (wellFormedEv none = false ∧ step sTwo (.draw "alice" none) = (sTwo, [])) ∧
    (sTwo.currentRoom "alice" = some "r" ∧ wellFormedEv (some evA) = true ∧
      logOf (stepState sTwo (.draw "alice" (some evA))) "r" =
        logOf sTwo "r" ++ [mkOp "alice" evA (logOf sTwo "r").length]) :=
  ⟨⟨rfl, (draw_drop_conditions sTwo "alice" none "r").2.1 rfl⟩,
    by decide, by decide,
    ((draw_drop_conditions sTwo "alice" (some evA) "r").2.2 (by decide) evA rfl
      (by decide)).1⟩

/-- Claim C9 (amended): cursor relay — a cursor message from a joined
session changes no state (nothing is stored) and produces exactly one
room broadcast of the position tagged with the sender's id, whose
recipients are all current members of the socket.io room — including the
sender, since the handler emits with `io.to(room)` rather than
`socket.to(room)` (see the counterexample); a cursor message from a
session in no room produces no broadcast. -/
theorem cursor_relay (s : ServerState) (sid : SessionId) (pos : CursorPos)
    (r : RoomId) :
    (s.currentRoom sid = some r →
      step s (.cursor sid pos) = (s, [(.toRoom r, .cursor sid pos.x pos.y pos.color)]) ∧
      recipientsOf s (.toRoom r) = s.ioRooms r) ∧
    (s.currentRoom sid = none → step s (.cursor sid pos) = (s, [])) :=
  ⟨fun h => ⟨cursor_emits_some s sid pos r h, rfl⟩, cursor_emits_none s sid pos⟩

/-- Witness for C9's amended theorem: alice, joined to "r", sends a cursor
position; the state is unchanged and the tagged position is broadcast to
room "r". -/
theorem cursor_relay_witness :
    sTwo.currentRoom "alice" = some "r" ∧
    step sTwo (.cursor "alice" posA) =
      (sTwo, [(.toRoom "r", .cursor "alice" posA.x posA.y posA.color)]) :=
  ⟨by decide, ((cursor_relay sTwo "alice" posA "r").1 (by decide)).1⟩

/-- Counterexample to C9 as stated: the claim says the relay reaches every
current member **other than the sender**, but the handler broadcasts with
`io.to(room)`, which delivers to all sockets in the room.  Concretely,
with alice and bob both members of "r", alice's cursor message is emitted
to room "r" and alice herself is among the recipients. -/
theorem cursor_relay_counterexample :
    sTwo.currentRoom "alice" = some "r" ∧
    ("alice" : SessionId) ∈ sTwo.ioRooms "r" ∧
    ("bob" : SessionId) ∈ sTwo.ioRooms "r" ∧
    (step sTwo (.cursor "alice" posA)).2 =
      [(.toRoom "r", .cursor "alice" posA.x posA.y posA.color)] ∧
    ("alice" : SessionId) ∈ recipientsOf sTwo (.toRoom "r") := by
  decide

/-- Claim C10: join is read-only on the log — a join leaves every room's
log contents unchanged (a previously existing log keeps every operation,
order and `active` flag; an unseen `roomId` merely gets an empty log
installed), any sequence of joins leaves every log unchanged, and the
history reply sent to the joining session is exactly the room's current
log. -/
theorem join_readonly_log (s : ServerState) (sid : SessionId) (room r : RoomId) :
    logOf (stepState s (.joinRoom sid room)) r = logOf s r ∧
    (r ≠ room → (stepState s (.joinRoom sid room)).roomsOperations r = s.roomsOperations r) ∧
    (s.roomsOperations room = none →
      (stepState s (.joinRoom sid room)).roomsOperations room = some []) ∧
    (∀ l, s.roomsOperations room = some l →
      (stepState s (.joinRoom sid room)).roomsOperations room = some l) ∧
    (∀ reqs : List Request, (∀ q ∈ reqs, ∃ sid' room', q = .joinRoom sid' room') →
      logOf (runState s reqs) r = logOf s r) ∧
    (step s (.joinRoom sid room)).2 =
      [(.toSocket sid, .canvasHistory (logOf s room)),
       (.toSocket sid, .userInfo sid),
       (.toRoom room, .userList (registryJoin s.storeClients room sid room))] := by
  refine ⟨logOf_join s sid room r, ?_, ?_, ?_,
    fun reqs hreqs => logOf_join_seq s reqs hreqs r, join_emits s sid room⟩
  · intro hne
    rw [join_roomsOps]
    dsimp only
    rw [if_neg hne]
  · intro hnone
    rw [join_roomsOps]
    dsimp only
    rw [if_pos rfl, hnone]
    rfl
  · intro l hl
    rw [join_roomsOps]
    dsimp only
    rw [if_pos rfl, hl]
    rfl

/-- Witness for C10: bob joins room "r" in the state where alice already
drew one operation; the log of "r" is unchanged (including the `active`
flag), other rooms are untouched, and the history reply carries that log. -/
theorem join_readonly_log_witness :
    logOf (stepState sDrawn (.joinRoom "bob" "r")) "r" = logOf sDrawn "r" ∧
    (("q" : RoomId) ≠ "r" →
      (stepState sDrawn (.joinRoom "bob" "r")).roomsOperations "q" =
        sDrawn.roomsOperations "q") ∧
    (step sDrawn (.joinRoom "bob" "r")).2 =
      [(.toSocket "bob", .canvasHistory (logOf sDrawn "r")),
       (.toSocket "bob", .userInfo "bob"),
       (.toRoom "r", .userList (registryJoin sDrawn.storeClients "r" "bob" "r"))] :=
  ⟨(join_readonly_log sDrawn "bob" "r" "r").1,
    fun h => (join_readonly_log sDrawn "bob" "r" "q").2.1 h,
    (join_readonly_log sDrawn "bob" "r" "r").2.2.2.2.2⟩

end CollabCanvas
